import Mathlib

/-!
Verification development for the Xpond llm_chat_interface repository.

The component under study is the incremental streaming-response assembler of
the chat client (`handleStreamResponse` in `App.tsx`), together with the
surrounding handlers `handleNewChat` and `handleSendPrompt`.

JavaScript strings are modelled as `List Char`.  The two provider wire
formats (newline-delimited JSON for Ollama, `data:`-prefixed SSE records for
OpenRouter) are decoded by a JSON parser modelled on `JSON.parse`, and the
relevant pieces of JavaScript evaluation (truthiness, property access,
string coercion of `+=`) are given explicit executable definitions.
-/

set_option maxRecDepth 10000

/-- JavaScript strings, modelled as lists of characters. -/
abbrev Str := List Char

/-- Turn a Lean string literal into the `List Char` model. -/
def str (s : String) : Str := s.toList

/-- The JavaScript whitespace class (the Unicode-aware class used both by the
regex `\s` and by `String.prototype.trim`). -/
def isWsJS (c : Char) : Bool :=
  c = ' ' || c = '\t' || c = '\n' || c = '\r' || c = '\x0b' || c = '\x0c' ||
  c.toNat = 0xa0 || c.toNat = 0x1680 ||
  (0x2000 ≤ c.toNat && c.toNat ≤ 0x200a) ||
  c.toNat = 0x2028 || c.toNat = 0x2029 || c.toNat = 0x202f ||
  c.toNat = 0x205f || c.toNat = 0x3000 || c.toNat = 0xfeff

/-- `!line.trim()` in JavaScript: the string trims to the empty string, i.e.
every character is whitespace. -/
def allWs (s : Str) : Bool := s.all isWsJS

/-- `s.split('\n')` in JavaScript: split on every newline, keeping empty
pieces (so a trailing newline yields a trailing empty piece). -/
def splitNl : Str → List Str
  | [] => [[]]
  | c :: cs =>
    let r := splitNl cs
    if c = '\n' then [] :: r else (c :: r.headI) :: r.tail

/-- `s.startsWith(p)` for the character-list model. -/
def startsWithL (p s : Str) : Bool := p.isPrefixOf s

/-- `s.includes(p)`: `p` occurs as a contiguous substring of `s`. -/
def containsSub (p : Str) : Str → Bool
  | [] => p.isPrefixOf []
  | c :: cs => p.isPrefixOf (c :: cs) || containsSub p cs

/-! ## A model of `JSON.parse` -/

/-- JSON values.  Numbers keep their source lexeme: the stream assembler
never inspects numeric values beyond truthiness. -/
inductive JVal where
  | null : JVal
  | bool : Bool → JVal
  | num : Str → JVal
  | str : Str → JVal
  | arr : List JVal → JVal
  | obj : List (Str × JVal) → JVal

/-- Skip JSON insignificant whitespace (space, tab, LF, CR). -/
def skipWsJ (s : Str) : Str :=
  s.dropWhile (fun c => c = ' ' || c = '\t' || c = '\n' || c = '\r')

/-- Translate a JSON string escape character to the character it denotes
(the `\uXXXX` form is handled separately). -/
def escChar : Char → Option Char
  | '"' => some '"'
  | '\\' => some '\\'
  | '/' => some '/'
  | 'b' => some '\x08'
  | 'f' => some '\x0c'
  | 'n' => some '\n'
  | 'r' => some '\r'
  | 't' => some '\t'
  | _ => none

/-- Value of a hexadecimal digit. -/
def hexVal (c : Char) : Option Nat :=
  if '0' ≤ c ∧ c ≤ '9' then some (c.toNat - '0'.toNat)
  else if 'a' ≤ c ∧ c ≤ 'f' then some (c.toNat - 'a'.toNat + 10)
  else if 'A' ≤ c ∧ c ≤ 'F' then some (c.toNat - 'A'.toNat + 10)
  else none

/-- Parse the body of a JSON string after the opening quote; returns the
decoded contents and the remaining input after the closing quote.
Lone-surrogate `\uXXXX` escapes are out of scope (the assembler never
receives them in the behaviours specified). -/
def parseStringBody : Str → Option (Str × Str)
  | [] => none
  | '"' :: rest => some ([], rest)
  | '\\' :: 'u' :: h1 :: h2 :: h3 :: h4 :: rest => do
    let v1 ← hexVal h1
    let v2 ← hexVal h2
    let v3 ← hexVal h3
    let v4 ← hexVal h4
    let (t, r) ← parseStringBody rest
    some (Char.ofNat (((v1 * 16 + v2) * 16 + v3) * 16 + v4) :: t, r)
  | '\\' :: e :: rest => do
    let c ← escChar e
    let (t, r) ← parseStringBody rest
    some (c :: t, r)
  | c :: rest =>
    if c.toNat < 0x20 then none
    else do
      let (t, r) ← parseStringBody rest
      some (c :: t, r)

/-- Maximal run of decimal digits. -/
def takeDigits (s : Str) : Str × Str := (s.takeWhile Char.isDigit, s.dropWhile Char.isDigit)

/-- Optional exponent part of a JSON number. -/
def lexExp (acc : Str) (s : Str) : Option (Str × Str) :=
  match s with
  | 'e' :: r | 'E' :: r =>
    let (sgn, r1) := match r with
      | '+' :: r' => (['+'], r')
      | '-' :: r' => (['-'], r')
      | _ => (([] : Str), r)
    let (d, r2) := takeDigits r1
    if d = [] then none else some (acc ++ 'e' :: sgn ++ d, r2)
  | _ => some (acc, s)

/-- Optional fraction part of a JSON number, then the exponent. -/
def lexFrac (acc : Str) (s : Str) : Option (Str × Str) :=
  match s with
  | '.' :: r =>
    let (d, r1) := takeDigits r
    if d = [] then none else lexExp (acc ++ '.' :: d) r1
  | _ => lexExp acc s

/-- Lex a JSON number, returning its lexeme and the remaining input. -/
def lexNum (s : Str) : Option (Str × Str) :=
  let (neg, s1) : Str × Str := match s with
    | '-' :: r => (['-'], r)
    | _ => ([], s)
  match s1 with
  | '0' :: r => lexFrac (neg ++ ['0']) r
  | c :: r =>
    if c.isDigit then
      let (d, r1) := takeDigits r
      lexFrac (neg ++ c :: d) r1
    else none
  | [] => none

mutual

/-- Parse one JSON value (fuelled recursive descent). -/
def parseVal : Nat → Str → Option (JVal × Str)
  | 0, _ => none
  | n + 1, s =>
    match skipWsJ s with
    | '{' :: r =>
      match skipWsJ r with
      | '}' :: r1 => some (.obj [], r1)
      | r1 => parseMembers n r1 []
    | '[' :: r =>
      match skipWsJ r with
      | ']' :: r1 => some (.arr [], r1)
      | r1 => parseElems n r1 []
    | '"' :: r => do
      let (t, r1) ← parseStringBody r
      some (.str t, r1)
    | 't' :: r => if (str "rue").isPrefixOf r then some (.bool true, r.drop 3) else none
    | 'f' :: r => if (str "alse").isPrefixOf r then some (.bool false, r.drop 4) else none
    | 'n' :: r => if (str "ull").isPrefixOf r then some (.null, r.drop 3) else none
    | s1 => do
      let (lx, r) ← lexNum s1
      some (.num lx, r)

/-- Parse the members of a JSON object after the opening brace (first key
expected next). -/
def parseMembers : Nat → Str → List (Str × JVal) → Option (JVal × Str)
  | 0, _, _ => none
  | n + 1, s, acc =>
    match skipWsJ s with
    | '"' :: r => do
      let (k, r1) ← parseStringBody r
      match skipWsJ r1 with
      | ':' :: r2 => do
        let (v, r3) ← parseVal n r2
        match skipWsJ r3 with
        | ',' :: r4 => parseMembers n r4 (acc ++ [(k, v)])
        | '}' :: r4 => some (.obj (acc ++ [(k, v)]), r4)
        | _ => none
      | _ => none
    | _ => none

/-- Parse the elements of a JSON array after the opening bracket (first
element expected next). -/
def parseElems : Nat → Str → List JVal → Option (JVal × Str)
  | 0, _, _ => none
  | n + 1, s, acc => do
    let (v, r) ← parseVal n s
    match skipWsJ r with
    | ',' :: r1 => parseElems n r1 (acc ++ [v])
    | ']' :: r1 => some (.arr (acc ++ [v]), r1)
    | _ => none

end

/-- `JSON.parse(s)`: parse a complete JSON document; trailing whitespace is
allowed, anything else after the value is an error (`none` models the thrown
`SyntaxError`). -/
def jsonParse (s : Str) : Option JVal :=
  match parseVal (s.length + 1) s with
  | some (v, rest) => if skipWsJ rest = [] then some v else none
  | none => none

example : jsonParse (str "\x7b\"a\":1\x7d") = some (.obj [(['a'], .num ['1'])]) := rfl
example : jsonParse (str "\x7b\"mes") = none := rfl
example : jsonParse (str "null") = some .null := rfl
example : jsonParse (str "[true, \"x\"]") = some (.arr [.bool true, .str ['x']]) := rfl

/-! ## JavaScript value semantics used by the assembler -/

/-- Last-occurrence lookup in an object's field list (later duplicate keys
win, as in `JSON.parse`). -/
def objGet (fs : List (Str × JVal)) (k : Str) : Option JVal :=
  ((fs.filter (fun p => p.1 = k)).getLast?).map (·.2)

/-- JavaScript property access `v.k` for the keys the assembler uses:
objects look the key up, any other non-nullish value yields `undefined`
(modelled as `none`).  Access on `null` throws instead; callers that can
receive `null` handle that case explicitly. -/
def getField : JVal → Str → Option JVal
  | .obj fs, k => objGet fs k
  | _, _ => none

/-- Does the numeric lexeme denote the value zero (every digit of the
integer and fraction parts is `0`)? -/
def numIsZero (lx : Str) : Bool :=
  ((match lx with
    | '-' :: r => r
    | r => r).takeWhile (fun c => c ≠ 'e' ∧ c ≠ 'E')).all
    (fun c => c = '0' || c = '.')

/-- JavaScript truthiness of a parsed JSON value. -/
def truthy : JVal → Bool
  | .null => false
  | .bool b => b
  | .num lx => ! numIsZero lx
  | .str s => s ≠ []
  | .arr _ => true
  | .obj _ => true

/-- Truthiness of a possibly-`undefined` value. -/
def truthyO : Option JVal → Bool
  | none => false
  | some v => truthy v

/-- JavaScript indexing `v[0]`, used on the `choices` value (only ever
evaluated when that value is truthy, hence never on `null`). -/
def jsIndex0 : JVal → Option JVal
  | .arr (x :: _) => some x
  | .arr [] => none
  | .str (c :: _) => some (.str [c])
  | .obj fs => objGet fs ['0']
  | _ => none

/-- Indexing through a possibly-`undefined` base. -/
def optIndex0 : Option JVal → Option JVal
  | none => none
  | some v => jsIndex0 v

/-- Optional chaining `base?.k`: `undefined` when the base is `undefined`
or `null`, plain property access otherwise. -/
def optChain (base : Option JVal) (k : Str) : Option JVal :=
  match base with
  | none => none
  | some .null => none
  | some v => getField v k

mutual

/-- JavaScript `String(v)` for parsed JSON values, as used by the string
concatenation `buffer += v`.  A numeric value keeps its source lexeme (the
claims never append numbers, so `Number.prototype.toString` re-formatting is
not modelled). -/
def jsValToStr : JVal → Str
  | .null => str "null"
  | .bool true => str "true"
  | .bool false => str "false"
  | .num lx => lx
  | .str s => s
  | .arr xs => jsArrToStr xs
  | .obj _ => str "[object Object]"

/-- `Array.prototype.toString`: elements joined with commas, `null` elements
contributing the empty string. -/
def jsArrToStr : List JVal → Str
  | [] => []
  | x :: xs =>
    (match x with
     | .null => []
     | v => jsValToStr v) ++
    (match xs with
     | [] => []
     | _ => ',' :: jsArrToStr xs)

end

/-- `String(v)` where `v` may be `undefined`. -/
def jsStrU : Option JVal → Str
  | none => str "undefined"
  | some v => jsValToStr v

/-! ## Session state of one `handleStreamResponse` run

`buffer` is `streamBufferRef.current`, `wordBuffer` is the local holding
buffer of the paced (gemini) path, `emits` records every append made to the
buffer as a pair of the `setTimeout` delay awaited just before the append
(in milliseconds) and the appended text, and `notif` counts the calls to
`setStreamedResponse` (the observer notifications). -/
structure St where
  buffer : Str
  wordBuffer : Str
  emits : List (Nat × Str)
  notif : Nat
deriving DecidableEq

/-- Append `t` to the session buffer with delay `d` and notify the
observer. -/
def appendText (d : Nat) (t : Str) (st : St) : St :=
  { st with
    buffer := st.buffer ++ t
    emits := st.emits ++ [(d, t)]
    notif := st.notif + 1 }

/-! ## The paced (gemini) sub-token split

`content.split(/(\s+|[.,!?])/)` keeps the captured separators: the pieces
alternate between separator-free text and separators, where a separator is
either a maximal whitespace run or one punctuation character. -/

/-- Is the character one of the four punctuation separators of the paced
split regex? -/
def isPunctSep (c : Char) : Bool := c = '.' || c = ',' || c = '!' || c = '?'

/-- Fuelled worker for the paced split (the regex scan consumes input, so
`length + 1` fuel always suffices; the fuel-out branch is unreachable). -/
def splitKeepFuel : Nat → Str → List Str
  | 0, s => [s]
  | n + 1, s =>
    let pre := s.takeWhile (fun c => !(isWsJS c || isPunctSep c))
    match s.dropWhile (fun c => !(isWsJS c || isPunctSep c)) with
    | [] => [pre]
    | c :: cs =>
      if isWsJS c then
        pre :: (c :: cs).takeWhile isWsJS ::
          splitKeepFuel n ((c :: cs).dropWhile isWsJS)
      else
        pre :: [c] :: splitKeepFuel n cs

/-- `content.split(/(\s+|[.,!?])/)` including the captured separators. -/
def splitKeep (s : Str) : List Str := splitKeepFuel (s.length + 1) s

/-- The sub-tokens the paced loop actually emits: the split pieces with the
empty strings skipped (`if (word)`). -/
def pacedTokens (content : Str) : List Str :=
  (splitKeep content).filter (fun w => !w.isEmpty)

example : pacedTokens (str "Hi, world!") =
    [str "Hi", str ",", str " ", str "world", str "!"] := rfl

/-- The paced (gemini) emission of one extracted content string:
`wordBuffer += content`, then each non-empty sub-token is appended to the
session buffer after a 30 ms delay, then `wordBuffer = ''`. -/
def pacedEmit (content : Str) (st : St) : St :=
  let st1 := { st with wordBuffer := st.wordBuffer ++ content }
  let st2 := (pacedTokens content).foldl (fun s w => appendText 30 w s) st1
  { st2 with wordBuffer := [] }

/-! ## The OpenRouter (server-sent events) branch -/

/-- The expression `jsonData.choices[0]?.delta?.content` (evaluated only
when `jsonData.choices` is truthy, so the unguarded indexing cannot
throw). -/
def sseContentOf (j : JVal) : Option JVal :=
  optChain (optChain (optIndex0 (getField j (str "choices"))) (str "delta"))
    (str "content")

/-- Processing of one line of an OpenRouter chunk, for pacing flag `g`
(`selectedLLM.includes('gemini')`).  Blank lines and lines containing the
`[DONE]` sentinel are skipped; a `data: ` line has its payload parsed, and a
record with a truthy first-choice delta content is appended (paced or
immediate).  A payload that fails to parse — or parses to `null`, making
`jsonData.choices` throw — is caught, logged and skipped. -/
def sseLine (g : Bool) (line : Str) (st : St) : St :=
  if allWs line || containsSub (str "[DONE]") line then st
  else if startsWithL (str "data: ") line then
    match jsonParse (line.drop 6) with
    | none => st
    | some .null => st
    | some j =>
      if truthyO (getField j (str "choices")) then
        if truthyO (sseContentOf j) then
          let content := jsStrU (sseContentOf j)
          if g then pacedEmit content st
          else appendText 0 content st
        else st
      else st
  else st

/-- Processing of one OpenRouter chunk: split on newlines and handle the
lines in order. -/
def sseChunk (g : Bool) (chunk : Str) (st : St) : St :=
  (splitNl chunk).foldl (fun s l => sseLine g l s) st

/-! ## The Ollama (newline-delimited JSON) branch -/

/-- Processing of one line of an Ollama chunk.  The second component
signals that a JavaScript exception escaped this line: `JSON.parse` threw,
or the parsed value is `null` so that `data.message` threw. -/
def ollamaLine (st : St) (line : Str) : St × Bool :=
  if allWs line then (st, false)
  else
    match jsonParse line with
    | none => (st, true)
    | some .null => (st, true)
    | some data =>
      if truthyO (getField data (str "message")) then
        (appendText 0
          (jsStrU (optChain (getField data (str "message")) (str "content"))) st,
         false)
      else if truthyO (getField data (str "response")) then
        (appendText 0 (jsStrU (getField data (str "response"))) st, false)
      else (st, false)

/-- Process the lines of an Ollama chunk in order, stopping at the first
line whose processing throws (the exception aborts the `for` loop). -/
def ollamaLines : List Str → St → St × Bool
  | [], st => (st, false)
  | l :: ls, st =>
    match ollamaLine st l with
    | (st', true) => (st', true)
    | (st', false) => ollamaLines ls st'

/-- Processing of one Ollama chunk: the whole per-line loop sits in one
`try`; if any line throws, the `catch` appends the entire raw chunk to the
buffer (after whatever the earlier lines already appended). -/
def ollamaChunk (chunk : Str) (st : St) : St :=
  match ollamaLines (splitNl chunk) st with
  | (st', true) => appendText 0 chunk st'
  | (st', false) => st'

/-! ## The assembler over a whole stream -/

/-- The two providers of the client (`apiProvider`). -/
inductive Provider where
  | openrouter : Provider
  | ollama : Provider
deriving DecidableEq

/-- `selectedLLM.includes('gemini')`. -/
def isGeminiModel (modelId : Str) : Bool := containsSub (str "gemini") modelId

/-- Dispatch of one decoded chunk on the configured provider. -/
def procChunk (p : Provider) (g : Bool) (chunk : Str) (st : St) : St :=
  match p with
  | .ollama => ollamaChunk chunk st
  | .openrouter => sseChunk g chunk st

/-- The read loop: chunks are decoded and processed strictly in arrival
order. -/
def runChunks (p : Provider) (g : Bool) (chunks : List Str) (st : St) : St :=
  chunks.foldl (fun s c => procChunk p g c s) st

/-- The flush after the read loop: `if (wordBuffer)` append it and notify
(the local variable itself then goes out of scope). -/
def flushWB (st : St) : St :=
  if st.wordBuffer ≠ [] then appendText 0 st.wordBuffer st else st

/-- `handleStreamResponse`: run the read loop from an initial buffer value
(`streamBufferRef.current` at entry; the local `wordBuffer` starts empty),
then flush.  The final state's `buffer` is the returned string. -/
def handleStreamResponse (p : Provider) (g : Bool) (chunks : List Str)
    (buf0 : Str) : St :=
  flushWB (runChunks p g chunks { buffer := buf0, wordBuffer := [], emits := [], notif := 0 })

/-- The string returned by `handleStreamResponse` (the final
`streamBufferRef.current`). -/
def streamResult (p : Provider) (g : Bool) (chunks : List Str) (buf0 : Str) : Str :=
  (handleStreamResponse p g chunks buf0).buffer

/-! ## Abandonment (`handleNewChat`) and interleaved sessions -/

/-- `handleNewChat`, restricted to its effect on the streaming session: the
shared buffer `streamBufferRef.current` is reset to the empty string and
`setStreamedResponse('')` notifies the observer once with the cleared value.
Nothing cancels the in-flight read loop, and the loop's local `wordBuffer`
is untouched. -/
def handleNewChat (st : St) : St :=
  { st with buffer := [], notif := st.notif + 1 }

/-- Events that can reach the session state while a stream is in flight:
arrival of a transport chunk, or the caller abandoning the session by
invoking `handleNewChat` (e.g. navigating to a new chat). -/
inductive Ev where
  | chunk : Str → Ev
  | newChat : Ev

/-- One event step against the session state. -/
def stepEv (p : Provider) (g : Bool) (st : St) (e : Ev) : St :=
  match e with
  | .chunk c => procChunk p g c st
  | .newChat => handleNewChat st

/-- A whole interleaving of chunk arrivals and abandonment, in the order
the single-threaded event loop runs them. -/
def runEv (p : Provider) (g : Bool) (evs : List Ev) (st : St) : St :=
  evs.foldl (stepEv p g) st

/-! ## `handleSendPrompt` -/

/-- The pieces of component state `handleSendPrompt` reads or writes before
its first awaited collaborator response. -/
structure UIState where
  prompt : Str
  selectedLLM : Str
  apiProvider : Provider
  isConversationStarted : Bool
  isGenerating : Bool
  currentChatId : Option Str
  streamBuffer : Str
  streamedResponse : Str
deriving DecidableEq

/-- Requests `handleSendPrompt` issues to its collaborators. -/
inductive Effect where
  | createChat : Str → Effect
  | saveMessage : Str → Str → Effect
  | providerRequest : Provider → Str → Str → Effect
deriving DecidableEq

/-- `handleSendPrompt`: the guard returns immediately when the prompt trims
to nothing or no model is selected; otherwise the handler updates the UI
state and issues its requests.  The effect list records the success-path
requests up to the streaming provider request (every later step awaits a
collaborator response, so it is outside this synchronous model). -/
def handleSendPrompt (s : UIState) : UIState × List Effect :=
  if allWs s.prompt || s.selectedLLM = [] then (s, [])
  else
    let currentPrompt := s.prompt
    let s1 := { s with
      isConversationStarted := true
      prompt := []
      isGenerating := true
      streamBuffer := []
      streamedResponse := [] }
    let chatEff : List Effect :=
      match s.currentChatId with
      | none => [.createChat (((splitNl currentPrompt).headI).take 30)]
      | some _ => []
    (s1, chatEff ++
      [.saveMessage (str "user") currentPrompt,
       .providerRequest s.apiProvider s.selectedLLM currentPrompt])

/-! ## The frame parser and extractor of the specification

The refinement claims compare the code against the spec's component design,
so the LineDelimitedJSON ProviderFrameParser/ContentExtractor pipeline is
also stated, following the spec's words. -/

/-- Modelled from the spec: the ContentExtractor for one complete
LineDelimitedJSON frame (spec 4.2/4.3).  A line is parsed as JSON; a parse
failure makes the raw line text an opaque fallback fragment; a parsed
record contributes the string value of its assistant-role payload field
(`message.content`) or its direct-completion field (`response`), if
present; otherwise no fragment. -/
def specLDJFrag (l : Str) : Option Str :=
  match jsonParse l with
  | none => some l
  | some data =>
    match optChain (getField data (str "message")) (str "content") with
    | some (.str s) => some s
    | _ =>
      match getField data (str "response") with
      | some (.str s) => some s
      | _ => none

/-- Modelled from the spec: one chunk step of the LineDelimitedJSON
ProviderFrameParser (spec 4.2).  The pending fragment is prefixed onto the
chunk's text, the result is split on newlines, every line except the last
is a complete frame handed to the extractor, and the last line is retained
as the new pending fragment. -/
def specLDJStep (pc : Str × List Str) (chunk : Str) : Str × List Str :=
  let ls := splitNl (pc.1 ++ chunk)
  (ls.getLastD [], pc.2 ++ ls.dropLast.filterMap specLDJFrag)

/-- Modelled from the spec: the fragments extracted over a whole
LineDelimitedJSON stream (pending fragment threaded across chunks, initial
pending empty). -/
def specLDJFragments (chunks : List Str) : List Str :=
  (chunks.foldl specLDJStep ([], [])).2

/-! ## Per-line fragments of the code

For chunk sequences whose boundaries fall on newline boundaries (and, for
Ollama, whose lines all parse), the code's behaviour is a per-line fold;
these are the fragments each line then contributes. -/

/-- Fragment contributed by one Ollama line when its processing throws no
exception. -/
def ollamaFrag (l : Str) : Option Str :=
  if allWs l then none
  else
    match jsonParse l with
    | none => none
    | some .null => none
    | some data =>
      if truthyO (getField data (str "message")) then
        some (jsStrU (optChain (getField data (str "message")) (str "content")))
      else if truthyO (getField data (str "response")) then
        some (jsStrU (getField data (str "response")))
      else none

/-- Fragment contributed by one OpenRouter line. -/
def sseFrag (l : Str) : Option Str :=
  if allWs l || containsSub (str "[DONE]") l then none
  else if startsWithL (str "data: ") l then
    match jsonParse (l.drop 6) with
    | none => none
    | some .null => none
    | some j =>
      if truthyO (getField j (str "choices")) then
        if truthyO (sseContentOf j) then some (jsStrU (sseContentOf j))
        else none
      else none
  else none

/-- Fragment contributed by one line, by provider. -/
def lineFrag (p : Provider) (l : Str) : Option Str :=
  match p with
  | .ollama => ollamaFrag l
  | .openrouter => sseFrag l

/-- Every line of the Ollama branch that throws no exception: blank, or
parsing to a value other than `null`. -/
def ollamaLineOk (l : Str) : Bool :=
  allWs l ||
    match jsonParse l with
    | none => false
    | some .null => false
    | some _ => true

/-- Lines never throw in the OpenRouter branch (every parse failure is
caught line-locally), so a chunk sequence is well-formed for a provider
when every chunk is empty or newline-terminated, and under Ollama every
line of every chunk parses. -/
def okSlicing (p : Provider) (chunks : List Str) : Prop :=
  (∀ c ∈ chunks, c = [] ∨ c.getLast? = some '\n') ∧
  (p = .ollama → ∀ c ∈ chunks, ∀ l ∈ splitNl c, ollamaLineOk l = true)

/-! ## Structure of `splitNl` -/

/-- All complete (newline-terminated) lines of a string. -/
def splitNlInit : Str → List Str
  | [] => []
  | c :: cs =>
    if c = '\n' then [] :: splitNlInit cs
    else
      match splitNlInit cs with
      | [] => []
      | h :: t => (c :: h) :: t

/-- The trailing text after the last newline of a string. -/
def splitNlLast : Str → Str
  | [] => []
  | c :: cs =>
    if c = '\n' then splitNlLast cs
    else
      match splitNlInit cs with
      | [] => c :: splitNlLast cs
      | _ :: _ => splitNlLast cs

theorem splitNl_ne_nil (s : Str) : splitNl s ≠ [] := by
  cases s with
  | nil => simp [splitNl]
  | cons c cs =>
    simp only [splitNl]
    split <;> simp

theorem splitNl_eq_init_last (s : Str) :
    splitNl s = splitNlInit s ++ [splitNlLast s] := by
  induction s with
  | nil => rfl
  | cons c cs ih =>
    by_cases hc : c = '\n'
    · subst hc
      simp only [splitNl, splitNlInit, splitNlLast, if_pos rfl, ih]
      rfl
    · simp only [splitNl, splitNlInit, splitNlLast, if_neg hc]
      cases h : splitNlInit cs with
      | nil =>
        rw [h] at ih
        simp only [List.nil_append] at ih
        simp [ih]
      | cons h0 t =>
        rw [h] at ih
        simp [ih]


theorem splitNl_cons_nl (cs : Str) : splitNl ('\n' :: cs) = [] :: splitNl cs := by
  simp [splitNl]

theorem splitNl_cons_ne {c : Char} (cs : Str) (hc : c ≠ '\n') :
    splitNl (c :: cs) = (c :: (splitNl cs).headI) :: (splitNl cs).tail := by
  simp [splitNl, hc]

theorem splitNlInit_cons_nl (cs : Str) :
    splitNlInit ('\n' :: cs) = [] :: splitNlInit cs := by
  simp [splitNlInit]

theorem splitNlInit_cons_ne {c : Char} (cs : Str) (hc : c ≠ '\n') :
    splitNlInit (c :: cs) =
      match splitNlInit cs with
      | [] => []
      | h :: t => (c :: h) :: t := by
  simp [splitNlInit, hc]

theorem splitNlLast_cons_nl (cs : Str) :
    splitNlLast ('\n' :: cs) = splitNlLast cs := by
  simp [splitNlLast]

theorem splitNlLast_cons_ne {c : Char} (cs : Str) (hc : c ≠ '\n') :
    splitNlLast (c :: cs) =
      match splitNlInit cs with
      | [] => c :: splitNlLast cs
      | _ :: _ => splitNlLast cs := by
  simp [splitNlLast, hc]

theorem splitNl_append (a b : Str) :
    splitNl (a ++ b) = splitNlInit a ++ splitNl (splitNlLast a ++ b) := by
  induction a with
  | nil => rfl
  | cons c cs ih =>
    by_cases hc : c = '\n'
    · subst hc
      rw [List.cons_append, splitNl_cons_nl, splitNlInit_cons_nl, splitNlLast_cons_nl,
        ih, List.cons_append]
    · rw [List.cons_append, splitNl_cons_ne _ hc, splitNlInit_cons_ne _ hc,
        splitNlLast_cons_ne _ hc]
      cases h : splitNlInit cs with
      | nil =>
        rw [h] at ih
        rw [List.nil_append] at ih
        rw [ih, List.nil_append, List.cons_append, splitNl_cons_ne _ hc]
      | cons h0 t =>
        rw [h] at ih
        rw [ih]
        simp

theorem splitNlInit_ne_nil_of_endNl (a : Str) (ha : a.getLast? = some '\n') :
    splitNlInit a ≠ [] := by
  induction a with
  | nil => simp at ha
  | cons c cs ih =>
    cases cs with
    | nil =>
      simp only [List.getLast?_singleton, Option.some.injEq] at ha
      subst ha
      simp [splitNlInit]
    | cons c' cs' =>
      rw [List.getLast?_cons_cons] at ha
      by_cases hc : c = '\n'
      · subst hc
        rw [splitNlInit_cons_nl]
        simp
      · rw [splitNlInit_cons_ne _ hc]
        cases h : splitNlInit (c' :: cs') with
        | nil => exact absurd h (ih ha)
        | cons h0 t => simp

theorem splitNlLast_of_endNl (a : Str) (ha : a.getLast? = some '\n') :
    splitNlLast a = [] := by
  induction a with
  | nil => simp at ha
  | cons c cs ih =>
    cases cs with
    | nil =>
      simp only [List.getLast?_singleton, Option.some.injEq] at ha
      subst ha
      simp [splitNlLast]
    | cons c' cs' =>
      rw [List.getLast?_cons_cons] at ha
      by_cases hc : c = '\n'
      · subst hc
        rw [splitNlLast_cons_nl]
        exact ih ha
      · rw [splitNlLast_cons_ne _ hc]
        cases h : splitNlInit (c' :: cs') with
        | nil => exact absurd h (splitNlInit_ne_nil_of_endNl _ ha)
        | cons h0 t => exact ih ha

/-! ## Chunk processing as a fold over lines -/

/-- The per-line state transformer of the assembler, by provider (the
Ollama direction only equals the chunk behaviour on lines that throw no
exception). -/
def lineStep (p : Provider) (g : Bool) (st : St) (l : Str) : St :=
  match p with
  | .ollama => (ollamaLine st l).1
  | .openrouter => sseLine g l st

theorem lineStep_nil (p : Provider) (g : Bool) (st : St) : lineStep p g st [] = st := by
  cases p <;> simp [lineStep, ollamaLine, sseLine, allWs, containsSub, startsWithL,
    List.isPrefixOf, str]

theorem ollamaLine_snd_of_ok {l : Str} (st : St) (h : ollamaLineOk l = true) :
    (ollamaLine st l).2 = false := by
  unfold ollamaLine
  unfold ollamaLineOk at h
  by_cases hw : allWs l
  · simp [hw]
  · simp only [hw, Bool.false_or] at h
    simp only [hw, if_neg, Bool.false_eq_true, ite_false]
    cases hp : jsonParse l with
    | none => rw [hp] at h; simp at h
    | some v =>
      rw [hp] at h
      cases v <;> simp_all <;> split <;> simp_all <;> split <;> simp_all

theorem ollamaLines_of_ok {ls : List Str} {st : St} (g : Bool)
    (h : ∀ l ∈ ls, ollamaLineOk l = true) :
    ollamaLines ls st = (ls.foldl (lineStep .ollama g) st, false) := by
  induction ls generalizing st with
  | nil => rfl
  | cons l ls ih =>
    have hl := h l (List.mem_cons_self l ls)
    have h2 := ollamaLine_snd_of_ok st hl
    unfold ollamaLines
    cases hline : ollamaLine st l with
    | mk st' e =>
      rw [hline] at h2
      simp only at h2
      subst h2
      simp only
      rw [ih (fun l' hl' => h l' (List.mem_cons_of_mem _ hl'))]
      simp only [List.foldl_cons, lineStep, hline]

theorem ollamaChunk_eq_fold {c : Str} {st : St} (g : Bool)
    (h : ∀ l ∈ splitNl c, ollamaLineOk l = true) :
    ollamaChunk c st = (splitNl c).foldl (lineStep .ollama g) st := by
  unfold ollamaChunk
  rw [ollamaLines_of_ok g h]

theorem sseChunk_eq_fold (g : Bool) (c : Str) (st : St) :
    sseChunk g c st = (splitNl c).foldl (lineStep .openrouter g) st := rfl

theorem procChunk_eq_fold {p : Provider} {g : Bool} {c : Str} {st : St}
    (h : p = .ollama → ∀ l ∈ splitNl c, ollamaLineOk l = true) :
    procChunk p g c st = (splitNl c).foldl (lineStep p g) st := by
  cases p with
  | ollama => exact ollamaChunk_eq_fold g (h rfl)
  | openrouter => rfl

theorem foldLines_append (f : St → Str → St) (hf : ∀ st, f st [] = st)
    (a b : Str) (ha : a = [] ∨ a.getLast? = some '\n') (st : St) :
    (splitNl (a ++ b)).foldl f st = (splitNl b).foldl f ((splitNl a).foldl f st) := by
  rcases ha with rfl | ha
  · rw [List.nil_append]
    congr 1
    show st = (splitNl []).foldl f st
    simp [splitNl, hf]
  · rw [splitNl_append, splitNlLast_of_endNl a ha, List.nil_append, List.foldl_append,
      splitNl_eq_init_last a, splitNlLast_of_endNl a ha, List.foldl_append]
    simp [hf]

theorem runChunks_eq_fold {p : Provider} {g : Bool} {cs : List Str} {st : St}
    (hok : okSlicing p cs) :
    runChunks p g cs st = (splitNl cs.flatten).foldl (lineStep p g) st := by
  induction cs generalizing st with
  | nil =>
    show st = (splitNl []).foldl (lineStep p g) st
    simp [splitNl, lineStep_nil]
  | cons c cs ih =>
    obtain ⟨hend, holl⟩ := hok
    have htail : okSlicing p cs :=
      ⟨fun c' hc' => hend c' (List.mem_cons_of_mem _ hc'),
       fun hp c' hc' => holl hp c' (List.mem_cons_of_mem _ hc')⟩
    show runChunks p g cs (procChunk p g c st) = _
    rw [ih htail, List.flatten_cons,
      foldLines_append _ (lineStep_nil p g) c cs.flatten (hend c (List.mem_cons_self c cs)) st,
      procChunk_eq_fold (fun hp => holl hp c (List.mem_cons_self c cs))]

/-! ## Claim C1 — chunk-boundary invariance -/

/-- A complete Ollama response of one frame carrying content `Hi`. -/
def exOllamaFull : Str := str "\x7b\"message\":\x7b\"content\":\"Hi\"\x7d\x7d\n"

/-- The same bytes re-sliced in the middle of the frame. -/
def exOllamaCut1 : Str := str "\x7b\"mes"

/-- Second half of the mid-frame re-slicing. -/
def exOllamaCut2 : Str := str "sage\":\x7b\"content\":\"Hi\"\x7d\x7d\n"

/-- Claim C1, as stated, is false: the same complete provider response,
re-sliced in the middle of a frame, assembles to a different final buffer
(the raw unparsed text instead of `Hi`). -/
theorem C1_counterexample :
    exOllamaCut1 ++ exOllamaCut2 = exOllamaFull ∧
    streamResult .ollama false [exOllamaCut1, exOllamaCut2] [] ≠
      streamResult .ollama false [exOllamaFull] [] := by
  exact ⟨rfl, by decide⟩

/-- Claim C1 (amended): for chunk re-slicings whose boundaries fall on
newline (frame) boundaries — and, for the Ollama variant, whose lines all
parse as non-`null` JSON — the final assembled buffer depends only on the
concatenated bytes, not on the slicing. -/
theorem C1_theorem (p : Provider) (g : Bool) (cs₁ cs₂ : List Str) (buf0 : Str)
    (h1 : okSlicing p cs₁) (h2 : okSlicing p cs₂)
    (hsame : cs₁.flatten = cs₂.flatten) :
    streamResult p g cs₁ buf0 = streamResult p g cs₂ buf0 := by
  unfold streamResult handleStreamResponse
  rw [runChunks_eq_fold h1, runChunks_eq_fold h2, hsame]

/-- Witness for C1: a two-frame Ollama response sliced as one chunk and as
two frame-aligned chunks assembles identically. -/
theorem C1_witness :
    streamResult .ollama false [exOllamaFull ++ exOllamaFull] [] =
      streamResult .ollama false [exOllamaFull, exOllamaFull] [] :=
  C1_theorem .ollama false [exOllamaFull ++ exOllamaFull] [exOllamaFull, exOllamaFull] []
    (by unfold okSlicing; decide) (by unfold okSlicing; decide) (by decide)

/-! ## No loss and no duplication in the paced split -/

theorem flatten_splitKeepFuel (n : Nat) (s : Str) :
    (splitKeepFuel n s).flatten = s := by
  induction n generalizing s with
  | zero => simp [splitKeepFuel]
  | succ n ih =>
    unfold splitKeepFuel
    cases h : s.dropWhile (fun c => !(isWsJS c || isPunctSep c)) with
    | nil =>
      simp only [List.flatten_cons, List.flatten_nil, List.append_nil]
      conv_rhs => rw [← List.takeWhile_append_dropWhile
        (p := fun c => !(isWsJS c || isPunctSep c)) (l := s), h]
      rw [List.append_nil]
    | cons c cs =>
      have hs : s = s.takeWhile (fun c => !(isWsJS c || isPunctSep c)) ++ c :: cs := by
        conv_lhs => rw [← List.takeWhile_append_dropWhile
          (p := fun c => !(isWsJS c || isPunctSep c)) (l := s), h]
      dsimp only
      by_cases hw : isWsJS c
      · rw [if_pos hw]
        simp only [List.flatten_cons, ih]
        rw [List.takeWhile_append_dropWhile]
        exact hs.symm
      · rw [if_neg hw]
        simp only [List.flatten_cons, ih, List.singleton_append]
        exact hs.symm

theorem flatten_splitKeep (s : Str) : (splitKeep s).flatten = s :=
  flatten_splitKeepFuel _ s

theorem flatten_filter_nonempty (l : List Str) :
    (l.filter (fun w => !w.isEmpty)).flatten = l.flatten := by
  induction l with
  | nil => rfl
  | cons w ws ih =>
    cases w with
    | nil => simpa using ih
    | cons a as => simpa using ih

theorem flatten_pacedTokens (content : Str) :
    (pacedTokens content).flatten = content := by
  unfold pacedTokens
  rw [flatten_filter_nonempty, flatten_splitKeep]

theorem foldl_appendText_buffer (ws : List Str) (d : Nat) (st : St) :
    ((ws.foldl (fun s w => appendText d w s) st)).buffer = st.buffer ++ ws.flatten := by
  induction ws generalizing st with
  | nil => simp
  | cons w ws ih =>
    rw [List.foldl_cons, ih]
    simp [appendText]

theorem foldl_appendText_emits (ws : List Str) (d : Nat) (st : St) :
    ((ws.foldl (fun s w => appendText d w s) st)).emits =
      st.emits ++ ws.map (fun w => (d, w)) := by
  induction ws generalizing st with
  | nil => simp
  | cons w ws ih =>
    rw [List.foldl_cons, ih]
    simp [appendText]

theorem foldl_appendText_wordBuffer (ws : List Str) (d : Nat) (st : St) :
    ((ws.foldl (fun s w => appendText d w s) st)).wordBuffer = st.wordBuffer := by
  induction ws generalizing st with
  | nil => rfl
  | cons w ws ih =>
    rw [List.foldl_cons, ih]
    rfl

theorem pacedEmit_buffer (content : Str) (st : St) :
    (pacedEmit content st).buffer = st.buffer ++ content := by
  unfold pacedEmit
  simp only
  rw [foldl_appendText_buffer, flatten_pacedTokens]

theorem pacedEmit_emits (content : Str) (st : St) :
    (pacedEmit content st).emits =
      st.emits ++ (pacedTokens content).map (fun w => (30, w)) := by
  unfold pacedEmit
  simp only
  rw [foldl_appendText_emits]

theorem pacedEmit_wordBuffer (content : Str) (st : St) :
    (pacedEmit content st).wordBuffer = [] := rfl

/-! ## Buffer and holding-buffer tracking through the per-line fold -/

theorem ollamaLine_fst_wordBuffer (st : St) (l : Str) :
    (ollamaLine st l).1.wordBuffer = st.wordBuffer := by
  unfold ollamaLine
  repeat' split
  all_goals simp [appendText]

theorem sseLine_wordBuffer {g : Bool} {l : Str} {st : St} (h : st.wordBuffer = []) :
    (sseLine g l st).wordBuffer = [] := by
  unfold sseLine
  repeat' split
  all_goals simp [appendText, pacedEmit_wordBuffer, h]

theorem lineStep_wordBuffer {p : Provider} {g : Bool} {st : St} {l : Str}
    (h : st.wordBuffer = []) : (lineStep p g st l).wordBuffer = [] := by
  cases p with
  | ollama => rw [show lineStep .ollama g st l = (ollamaLine st l).1 from rfl,
      ollamaLine_fst_wordBuffer]; exact h
  | openrouter => exact sseLine_wordBuffer h

theorem foldl_lineStep_wordBuffer {p : Provider} {g : Bool} (lines : List Str)
    {st : St} (h : st.wordBuffer = []) :
    ((lines).foldl (lineStep p g) st).wordBuffer = [] := by
  induction lines generalizing st with
  | nil => exact h
  | cons l ls ih => exact ih (lineStep_wordBuffer h)

theorem ollamaLine_fst_buffer {l : Str} (st : St) (h : ollamaLineOk l = true) :
    (ollamaLine st l).1.buffer = st.buffer ++ (ollamaFrag l).getD [] := by
  unfold ollamaLine ollamaFrag
  by_cases hw : allWs l
  · simp [hw]
  · simp only [hw, Bool.false_eq_true, ite_false]
    unfold ollamaLineOk at h
    have hw' : allWs l = false := by simpa using hw
    rw [hw', Bool.false_or] at h
    cases hp : jsonParse l with
    | none => rw [hp] at h; simp at h
    | some v =>
      rw [hp] at h
      cases v with
      | null => simp at h
      | bool b => simp [getField, truthyO]
      | num lx => simp [getField, truthyO]
      | str s => simp [getField, truthyO]
      | arr xs => simp [getField, truthyO]
      | obj fs =>
        by_cases hm : truthyO (getField (JVal.obj fs) (str "message")) = true
        · simp [hm, appendText]
        · by_cases hr : truthyO (getField (JVal.obj fs) (str "response")) = true
          · simp [hm, hr, appendText]
          · simp [hm, hr]

theorem sseLine_buffer (g : Bool) (l : Str) (st : St) :
    (sseLine g l st).buffer = st.buffer ++ (sseFrag l).getD [] := by
  unfold sseLine sseFrag
  by_cases h1 : allWs l || containsSub (str "[DONE]") l
  · simp [h1]
  · simp only [h1, Bool.false_eq_true, ite_false]
    by_cases h2 : startsWithL (str "data: ") l
    · simp only [h2, if_pos]
      cases hp : jsonParse (l.drop 6) with
      | none => simp
      | some v =>
        cases v with
        | null => simp
        | bool b => simp [getField, truthyO]
        | num lx => simp [getField, truthyO]
        | str s => simp [getField, truthyO]
        | arr xs => simp [getField, truthyO]
        | obj fs =>
          by_cases hch : truthyO (getField (JVal.obj fs) (str "choices")) = true
          · by_cases hct : truthyO (sseContentOf (JVal.obj fs)) = true
            · simp only [hch, hct, if_pos]
              cases g with
              | true => simp [pacedEmit_buffer]
              | false => simp [appendText]
            · simp [hch, hct]
          · simp [hch]
    · simp [h2]

theorem lineStep_buffer {p : Provider} (g : Bool) {l : Str} (st : St)
    (h : p = .ollama → ollamaLineOk l = true) :
    (lineStep p g st l).buffer = st.buffer ++ (lineFrag p l).getD [] := by
  cases p with
  | ollama => exact ollamaLine_fst_buffer st (h rfl)
  | openrouter => exact sseLine_buffer g l st

theorem foldl_lineStep_buffer {p : Provider} (g : Bool) (lines : List Str) (st : St)
    (h : p = .ollama → ∀ l ∈ lines, ollamaLineOk l = true) :
    ((lines).foldl (lineStep p g) st).buffer =
      st.buffer ++ (lines.filterMap (lineFrag p)).flatten := by
  induction lines generalizing st with
  | nil => simp
  | cons l ls ih =>
    rw [List.foldl_cons,
      ih _ (fun hp l' hl' => h hp l' (List.mem_cons_of_mem _ hl')),
      lineStep_buffer g st (fun hp => h hp l (List.mem_cons_self l ls))]
    cases hf : lineFrag p l with
    | none => simp [List.filterMap_cons, hf]
    | some x => simp [List.filterMap_cons, hf]

theorem mem_splitNl_flatten {cs : List Str}
    (hend : ∀ c ∈ cs, c = [] ∨ c.getLast? = some '\n') :
    ∀ l ∈ splitNl cs.flatten, l = [] ∨ ∃ c ∈ cs, l ∈ splitNl c := by
  induction cs with
  | nil =>
    intro l hl
    simp only [List.flatten_nil] at hl
    left
    simpa [splitNl] using hl
  | cons c cs ih =>
    intro l hl
    rw [List.flatten_cons, splitNl_append] at hl
    have hlast : splitNlLast c = [] := by
      rcases hend c (List.mem_cons_self c cs) with rfl | h
      · rfl
      · exact splitNlLast_of_endNl c h
    rw [hlast, List.nil_append] at hl
    rcases List.mem_append.mp hl with hinit | hrest
    · right
      refine ⟨c, List.mem_cons_self c cs, ?_⟩
      rw [splitNl_eq_init_last]
      exact List.mem_append.mpr (Or.inl hinit)
    · rcases ih (fun c' hc' => hend c' (List.mem_cons_of_mem _ hc')) l hrest with
        hnil | ⟨c', hc', hmem⟩
      · exact Or.inl hnil
      · exact Or.inr ⟨c', List.mem_cons_of_mem _ hc', hmem⟩

/-! ## Claim C2 — the buffer invariant -/

/-- The fragments the ContentExtractor rules of the code yield over the
frames (lines) of a complete response text. -/
def extractedFragments (p : Provider) (text : Str) : List Str :=
  (splitNl text).filterMap (lineFrag p)

/-- Claim C2, as stated, is false: with a transport chunk boundary inside a
frame, the final buffer differs from the concatenation of the fragments the
spec's frame parser and extractor produce for the same bytes (the
LineDelimitedJSON pipeline of the spec reassembles the split frame to the
fragment `Hi`, while the code appends the raw chunk text twice). -/
theorem C2_counterexample :
    (specLDJFragments [exOllamaCut1, exOllamaCut2]).flatten = str "Hi" ∧
    streamResult .ollama false [exOllamaCut1, exOllamaCut2] [] ≠
      (specLDJFragments [exOllamaCut1, exOllamaCut2]).flatten := by
  exact ⟨by decide, by decide⟩

/-- Claim C2 (amended): when every transport chunk boundary falls on a
frame (newline) boundary — and, under Ollama, every line parses as
non-`null` JSON — the session buffer at the end of any chunk sequence
equals its initial value followed by the concatenation, in arrival order,
of every extracted content fragment, with no gaps, duplicates or
reordering. -/
theorem C2_theorem (p : Provider) (g : Bool) (cs : List Str) (buf0 : Str)
    (hok : okSlicing p cs) :
    streamResult p g cs buf0 = buf0 ++ (extractedFragments p cs.flatten).flatten := by
  unfold streamResult handleStreamResponse extractedFragments
  rw [runChunks_eq_fold hok]
  have hwb : ((splitNl cs.flatten).foldl (lineStep p g)
      { buffer := buf0, wordBuffer := [], emits := [], notif := 0 }).wordBuffer = [] :=
    foldl_lineStep_wordBuffer _ rfl
  unfold flushWB
  rw [if_neg (by rw [hwb]; exact fun hne => hne rfl)]
  refine foldl_lineStep_buffer g _ _ (fun hp l hl => ?_)
  rcases mem_splitNl_flatten hok.1 l hl with rfl | ⟨c, hc, hmem⟩
  · rfl
  · exact hok.2 hp c hc l hmem

/-- Witness for C2: the two-frame Ollama response, delivered frame-aligned,
assembles to exactly the concatenation of its two extracted fragments. -/
theorem C2_witness :
    streamResult .ollama false [exOllamaFull, exOllamaFull] [] =
      [] ++ (extractedFragments .ollama ([exOllamaFull, exOllamaFull] : List Str).flatten).flatten :=
  C2_theorem .ollama false [exOllamaFull, exOllamaFull] [] (by unfold okSlicing; decide)

/-! ## Claims C3 and C4 — the Ollama error path -/

/-- The text the lines of an Ollama chunk append before the first throwing
line (second component: whether some line threw), determined by the lines
alone. -/
def ollamaLinesDelta : List Str → Str × Bool
  | [] => ([], false)
  | l :: ls =>
    if ollamaLineOk l then
      ((ollamaFrag l).getD [] ++ (ollamaLinesDelta ls).1, (ollamaLinesDelta ls).2)
    else ([], true)

/-- The total text one Ollama chunk appends to the buffer: the per-line
fragments up to the first throwing line, then — if some line threw — the
whole raw chunk. -/
def ollamaChunkDelta (c : Str) : Str :=
  if (ollamaLinesDelta (splitNl c)).2 then
    (ollamaLinesDelta (splitNl c)).1 ++ c
  else (ollamaLinesDelta (splitNl c)).1

theorem ollamaLine_of_not_ok {l : Str} (st : St) (h : ollamaLineOk l = false) :
    ollamaLine st l = (st, true) := by
  unfold ollamaLine
  unfold ollamaLineOk at h
  by_cases hw : allWs l
  · rw [hw] at h
    simp at h
  · have hw' : allWs l = false := by simpa using hw
    rw [hw', Bool.false_or] at h
    simp only [hw', Bool.false_eq_true, ite_false]
    cases hp : jsonParse l with
    | none => rfl
    | some v =>
      rw [hp] at h
      cases v with
      | null => rfl
      | bool b => simp at h
      | num lx => simp at h
      | str s => simp at h
      | arr xs => simp at h
      | obj fs => simp at h

theorem ollamaLines_delta (ls : List Str) (st : St) :
    (ollamaLines ls st).1.buffer = st.buffer ++ (ollamaLinesDelta ls).1 ∧
    (ollamaLines ls st).2 = (ollamaLinesDelta ls).2 := by
  induction ls generalizing st with
  | nil => simp [ollamaLines, ollamaLinesDelta]
  | cons l ls ih =>
    by_cases hok : ollamaLineOk l = true
    · have h2 := ollamaLine_snd_of_ok st hok
      have hb := ollamaLine_fst_buffer st hok
      unfold ollamaLines
      cases hline : ollamaLine st l with
      | mk st' e =>
        rw [hline] at h2 hb
        simp only at h2 hb
        subst h2
        simp only
        obtain ⟨ihb, ihe⟩ := ih st'
        unfold ollamaLinesDelta
        rw [if_pos hok]
        exact ⟨by rw [ihb, hb, List.append_assoc], by rw [ihe]⟩
    · have hbad : ollamaLineOk l = false := by simpa using hok
      unfold ollamaLines
      rw [ollamaLine_of_not_ok st hbad]
      unfold ollamaLinesDelta
      rw [if_neg (by simp [hbad])]
      simp

theorem ollamaChunk_delta (c : Str) (st : St) :
    (ollamaChunk c st).buffer = st.buffer ++ ollamaChunkDelta c := by
  unfold ollamaChunk ollamaChunkDelta
  obtain ⟨hb, he⟩ := ollamaLines_delta (splitNl c) st
  cases hlines : ollamaLines (splitNl c) st with
  | mk st' e =>
    rw [hlines] at hb he
    simp only at hb he
    cases e with
    | true =>
      rw [← he]
      simp only [appendText, hb, if_pos]
      rw [List.append_assoc]
    | false =>
      rw [hb, ← he]
      simp

/-- An Ollama chunk whose trailing line is an incomplete frame, followed by
the chunk completing that frame (to a record with no content field). -/
def exPendA : Str := str "\x7b\"message\":\x7b\"content\":\"a\"\x7d\x7d\n\x7b\"rem"

/-- The chunk completing the frame left open by `exPendA`. -/
def exPendB : Str := str "ainder\":1\x7d\n"

/-- Claim C3, as stated, is false: the incomplete trailing line of a chunk
is not retained and prefixed onto the next chunk.  Under the spec's pending
fragment rule these two chunks extract exactly the fragment `a`; the code
instead appends, on each of the two chunks, the whole raw chunk text after
the already-extracted content. -/
theorem C3_counterexample :
    (specLDJFragments [exPendA, exPendB]).flatten = str "a" ∧
    streamResult .ollama false [exPendA, exPendB] [] =
      str "a" ++ exPendA ++ exPendB ∧
    streamResult .ollama false [exPendA, exPendB] [] ≠
      (specLDJFragments [exPendA, exPendB]).flatten := by
  refine ⟨by decide, by decide, by decide⟩

/-- Claim C3 (amended): no fragment is carried between chunks.  The text a
chunk appends to the buffer is a function of that chunk alone, and when
some line of the chunk fails to parse (for instance an incomplete trailing
line), the appended text is the content extracted before the failure
followed by the chunk's entire raw text. -/
theorem C3_theorem (c : Str) (st : St) :
    (ollamaChunk c st).buffer = st.buffer ++ ollamaChunkDelta c ∧
    ((ollamaLinesDelta (splitNl c)).2 = true →
      ollamaChunkDelta c = (ollamaLinesDelta (splitNl c)).1 ++ c) := by
  refine ⟨ollamaChunk_delta c st, fun h => ?_⟩
  unfold ollamaChunkDelta
  rw [if_pos h]

/-- Witness for C3 at a chunk with an incomplete trailing line and a
non-empty starting buffer. -/
theorem C3_witness :
    (ollamaChunk exPendA { buffer := str "B", wordBuffer := [], emits := [], notif := 0 }).buffer =
      str "B" ++ ollamaChunkDelta exPendA ∧
    ollamaChunkDelta exPendA = (ollamaLinesDelta (splitNl exPendA)).1 ++ exPendA :=
  ⟨(C3_theorem exPendA { buffer := str "B", wordBuffer := [], emits := [], notif := 0 }).1,
   (C3_theorem exPendA { buffer := str "B", wordBuffer := [], emits := [], notif := 0 }).2
     (by decide)⟩

/-- A chunk whose first line is invalid JSON and whose second line is a
well-formed frame carrying content `X`. -/
def exBadGood : Str := str "bad\n\x7b\"message\":\x7b\"content\":\"X\"\x7d\x7d\n"

/-- Claim C4, as stated, is false: a line that fails to parse does not
append just that line's raw text with the remaining lines still processed
(which would give `badX`); it aborts the per-line loop and the whole raw
chunk is appended instead. -/
theorem C4_counterexample :
    (specLDJFragments [exBadGood]).flatten = str "badX" ∧
    streamResult .ollama false [exBadGood] [] = exBadGood ∧
    streamResult .ollama false [exBadGood] [] ≠
      (specLDJFragments [exBadGood]).flatten := by
  refine ⟨by decide, by decide, by decide⟩

theorem ollamaLines_append_bad (g : Bool) (ls1 : List Str) (l : Str) (ls2 : List Str)
    (st : St) (hok : ∀ l' ∈ ls1, ollamaLineOk l' = true) (hbad : ollamaLineOk l = false) :
    ollamaLines (ls1 ++ l :: ls2) st = (ls1.foldl (lineStep .ollama g) st, true) := by
  induction ls1 generalizing st with
  | nil =>
    rw [List.nil_append]
    unfold ollamaLines
    rw [ollamaLine_of_not_ok st hbad]
    rfl
  | cons l1 ls1 ih =>
    have h1 := hok l1 (List.mem_cons_self l1 ls1)
    have h2 := ollamaLine_snd_of_ok st h1
    rw [List.cons_append]
    unfold ollamaLines
    cases hline : ollamaLine st l1 with
    | mk st' e =>
      rw [hline] at h2
      simp only at h2
      subst h2
      simp only
      rw [ih st' (fun l' hl' => hok l' (List.mem_cons_of_mem _ hl'))]
      rw [List.foldl_cons]
      have : lineStep .ollama g st l1 = st' := by
        rw [show lineStep .ollama g st l1 = (ollamaLine st l1).1 from rfl, hline]
      rw [this]

/-- Claim C4 (amended): a line that fails to parse raises no stream error,
but it does abort per-line processing of the remainder of its chunk: the
buffer receives the fragments of the lines before the failure and then the
chunk's entire raw text, and processing resumes with the next chunk. -/
theorem C4_theorem (g : Bool) (ls1 : List Str) (l : Str) (ls2 : List Str) (c : Str)
    (st : St) (rest : List Str)
    (hsplit : splitNl c = ls1 ++ l :: ls2)
    (hok : ∀ l' ∈ ls1, ollamaLineOk l' = true)
    (hbad : ollamaLineOk l = false) :
    ollamaChunk c st = appendText 0 c (ls1.foldl (lineStep .ollama g) st) ∧
    runChunks .ollama g (c :: rest) st = runChunks .ollama g rest (ollamaChunk c st) := by
  constructor
  · unfold ollamaChunk
    rw [hsplit, ollamaLines_append_bad g ls1 l ls2 st hok hbad]
  · rfl

/-- Witness for C4: the failing first line of `exBadGood` aborts the loop at
once and the raw chunk is appended; the next chunk is still processed. -/
theorem C4_witness :
    ollamaChunk exBadGood { buffer := [], wordBuffer := [], emits := [], notif := 0 } =
      appendText 0 exBadGood
        (([] : List Str).foldl (lineStep .ollama false)
          { buffer := [], wordBuffer := [], emits := [], notif := 0 }) ∧
    runChunks .ollama false (exBadGood :: [exOllamaFull])
        { buffer := [], wordBuffer := [], emits := [], notif := 0 } =
      runChunks .ollama false [exOllamaFull]
        (ollamaChunk exBadGood { buffer := [], wordBuffer := [], emits := [], notif := 0 }) :=
  C4_theorem false [] (str "bad")
    [str "\x7b\"message\":\x7b\"content\":\"X\"\x7d\x7d", []] exBadGood
    { buffer := [], wordBuffer := [], emits := [], notif := 0 } [exOllamaFull]
    (by decide) (by intro l' hl'; cases hl') (by decide)

/-! ## Claim C5 — paced (gemini) emission -/

theorem dropWhile_head_false {p : Char → Bool} (s : Str) {c : Char} {cs : Str}
    (h : s.dropWhile p = c :: cs) : p c = false := by
  induction s with
  | nil => simp at h
  | cons a as ih =>
    rw [List.dropWhile_cons] at h
    by_cases hp : p a = true
    · rw [if_pos hp] at h
      exact ih h
    · have hp' : p a = false := by simpa using hp
      rw [if_neg (by simp [hp'])] at h
      injection h with h1 h2
      subst h1
      exact hp'

theorem splitKeepFuel_shape (n : Nat) :
    ∀ (s : Str), s.length ≤ n → ∀ t ∈ splitKeepFuel n s,
      t.all (fun ch => !(isWsJS ch || isPunctSep ch)) = true ∨
      (t ≠ [] ∧ t.all isWsJS = true) ∨
      (∃ ch, t = [ch] ∧ isPunctSep ch = true) := by
  induction n with
  | zero =>
    intro s hn t ht
    have hs : s = [] := List.length_eq_zero.mp (Nat.le_zero.mp hn)
    subst hs
    simp only [splitKeepFuel, List.mem_singleton] at ht
    subst ht
    left
    rfl
  | succ n ih =>
    intro s hn t ht
    unfold splitKeepFuel at ht
    cases h : s.dropWhile (fun c => !(isWsJS c || isPunctSep c)) with
    | nil =>
      rw [h] at ht
      dsimp only at ht
      rw [List.mem_singleton] at ht
      subst ht
      left
      rw [List.all_eq_true]
      intro x hx
      exact List.mem_takeWhile_imp
        (p := fun c => !(isWsJS c || isPunctSep c)) hx
    | cons c cs =>
      have hs : s = s.takeWhile (fun c => !(isWsJS c || isPunctSep c)) ++ c :: cs := by
        conv_lhs => rw [← List.takeWhile_append_dropWhile
          (p := fun c => !(isWsJS c || isPunctSep c)) (l := s), h]
      have hlen : cs.length ≤ n := by
        have hl := congrArg List.length hs
        rw [List.length_append, List.length_cons] at hl
        omega
      rw [h] at ht
      dsimp only at ht
      by_cases hw : isWsJS c = true
      · rw [if_pos hw] at ht
        rcases List.mem_cons.mp ht with rfl | ht2
        · left
          rw [List.all_eq_true]
          intro x hx
          exact List.mem_takeWhile_imp
            (p := fun c => !(isWsJS c || isPunctSep c)) hx
        · rcases List.mem_cons.mp ht2 with rfl | ht3
          · right; left
            constructor
            · rw [List.takeWhile_cons, if_pos hw]
              simp
            · rw [List.all_eq_true]
              intro x hx
              exact List.mem_takeWhile_imp (p := isWsJS) hx
          · refine ih _ ?_ t ht3
            rw [List.dropWhile_cons, if_pos hw]
            exact le_trans (List.dropWhile_sublist _).length_le hlen
      · rw [if_neg hw] at ht
        have hq : (fun c => !(isWsJS c || isPunctSep c)) c = false :=
          dropWhile_head_false s h
        have hpunct : isPunctSep c = true := by
          have hw' : isWsJS c = false := by simpa using hw
          simpa [hw'] using hq
        rcases List.mem_cons.mp ht with rfl | ht2
        · left
          rw [List.all_eq_true]
          intro x hx
          exact List.mem_takeWhile_imp
            (p := fun c => !(isWsJS c || isPunctSep c)) hx
        · rcases List.mem_cons.mp ht2 with rfl | ht3
          · right; right
            exact ⟨c, rfl, hpunct⟩
          · exact ih _ hlen t ht3

/-! Pacing changes only the emission granularity, never the final buffer. -/

theorem sseLines_buffer_eq (g1 g2 : Bool) (ls : List Str) :
    ∀ {st1 st2 : St}, st1.buffer = st2.buffer →
    ((ls.foldl (fun s l => sseLine g1 l s) st1)).buffer =
      ((ls.foldl (fun s l => sseLine g2 l s) st2)).buffer := by
  induction ls with
  | nil => intro st1 st2 hb; exact hb
  | cons l ls ih =>
    intro st1 st2 hb
    rw [List.foldl_cons, List.foldl_cons]
    exact ih (by rw [sseLine_buffer, sseLine_buffer, hb])

theorem sseRun_buffer_eq (g1 g2 : Bool) (cs : List Str) :
    ∀ {st1 st2 : St}, st1.buffer = st2.buffer →
    (runChunks .openrouter g1 cs st1).buffer = (runChunks .openrouter g2 cs st2).buffer := by
  induction cs with
  | nil => intro st1 st2 hb; exact hb
  | cons c cs ih =>
    intro st1 st2 hb
    exact ih (sseLines_buffer_eq g1 g2 (splitNl c) hb)

theorem ollamaLines_fst_wordBuffer (ls : List Str) (st : St) :
    (ollamaLines ls st).1.wordBuffer = st.wordBuffer := by
  induction ls generalizing st with
  | nil => rfl
  | cons l ls ih =>
    unfold ollamaLines
    cases hline : ollamaLine st l with
    | mk st' e =>
      have hwb : st'.wordBuffer = st.wordBuffer := by
        have := ollamaLine_fst_wordBuffer st l
        rw [hline] at this
        exact this
      cases e with
      | true => exact hwb
      | false => rw [ih st', hwb]

theorem procChunk_wordBuffer {p : Provider} {g : Bool} {c : Str} {st : St}
    (h : st.wordBuffer = []) : (procChunk p g c st).wordBuffer = [] := by
  cases p with
  | ollama =>
    show (ollamaChunk c st).wordBuffer = []
    unfold ollamaChunk
    cases hlines : ollamaLines (splitNl c) st with
    | mk st' e =>
      have hwb : st'.wordBuffer = [] := by
        have := ollamaLines_fst_wordBuffer (splitNl c) st
        rw [hlines] at this
        rw [this]
        exact h
      cases e with
      | true => simpa [appendText] using hwb
      | false => exact hwb
  | openrouter =>
    show (sseChunk g c st).wordBuffer = []
    unfold sseChunk
    generalize splitNl c = ls
    induction ls generalizing st with
    | nil => exact h
    | cons l ls ih => exact ih (sseLine_wordBuffer h)

theorem runChunks_wordBuffer {p : Provider} {g : Bool} (cs : List Str) {st : St}
    (h : st.wordBuffer = []) : (runChunks p g cs st).wordBuffer = [] := by
  induction cs generalizing st with
  | nil => exact h
  | cons c cs ih => exact ih (procChunk_wordBuffer h)

/-- Claim C5: paced (gemini) emission splits each extracted content string
into sub-tokens that are words, runs of whitespace, or single punctuation
marks; the sub-tokens are emitted in order, each preceded by the 30 ms
delay, and their concatenation is exactly the extracted text; the holding
buffer is empty afterwards (so the end-of-stream flush adds nothing), and a
whole paced stream assembles the same final buffer as immediate emission —
no loss and no duplication. -/
theorem C5_theorem (content : Str) (st : St) (cs : List Str) (buf0 : Str) :
    (pacedEmit content st).emits = st.emits ++ (pacedTokens content).map (fun w => (30, w)) ∧
    (pacedTokens content).flatten = content ∧
    (pacedEmit content st).buffer = st.buffer ++ content ∧
    (pacedEmit content st).wordBuffer = [] ∧
    (∀ t ∈ pacedTokens content, t ≠ [] ∧
      (t.all (fun ch => !(isWsJS ch || isPunctSep ch)) = true ∨
        t.all isWsJS = true ∨ (∃ ch, t = [ch] ∧ isPunctSep ch = true))) ∧
    streamResult .openrouter true cs buf0 = streamResult .openrouter false cs buf0 := by
  refine ⟨pacedEmit_emits content st, flatten_pacedTokens content,
    pacedEmit_buffer content st, pacedEmit_wordBuffer content st, ?_, ?_⟩
  · intro t ht
    have hne : ¬t.isEmpty := by
      have := List.of_mem_filter ht
      simpa using this
    have hmem : t ∈ splitKeep content := List.mem_of_mem_filter ht
    have hshape := splitKeepFuel_shape (content.length + 1) content
      (Nat.le_succ _) t hmem
    refine ⟨by simpa [List.isEmpty_iff] using hne, ?_⟩
    rcases hshape with h1 | ⟨_, h2⟩ | h3
    · exact Or.inl h1
    · exact Or.inr (Or.inl h2)
    · exact Or.inr (Or.inr h3)
  · unfold streamResult handleStreamResponse flushWB
    have h1 : (runChunks .openrouter true cs
        { buffer := buf0, wordBuffer := [], emits := [], notif := 0 }).wordBuffer = [] :=
      runChunks_wordBuffer cs rfl
    have h2 : (runChunks .openrouter false cs
        { buffer := buf0, wordBuffer := [], emits := [], notif := 0 }).wordBuffer = [] :=
      runChunks_wordBuffer cs rfl
    rw [if_neg (by rw [h1]; exact fun hne => hne rfl),
      if_neg (by rw [h2]; exact fun hne => hne rfl)]
    exact sseRun_buffer_eq true false cs rfl

/-! ## Claim C6 — the OpenRouter content rule -/

/-- The content a `data: ` record contributes according to its payload alone
(the record-level rule of the SSE branch, before the line-level sentinel
check). -/
def sseRecordContent (l : Str) : Option Str :=
  if startsWithL (str "data: ") l then
    match jsonParse (l.drop 6) with
    | none => none
    | some .null => none
    | some j =>
      if truthyO (getField j (str "choices")) && truthyO (sseContentOf j) then
        some (jsStrU (sseContentOf j))
      else none
  else none

/-- An SSE record whose delta content is the non-empty string `x[DONE]y`. -/
def exDoneLine : Str :=
  str "data: \x7b\"choices\":[\x7b\"delta\":\x7b\"content\":\"x[DONE]y\"\x7d\x7d]\x7d"

/-- The SSE chunk carrying content `A`. -/
def exSseA : Str := str "data: \x7b\"choices\":[\x7b\"delta\":\x7b\"content\":\"A\"\x7d\x7d]\x7d\n\n"

/-- The SSE termination chunk. -/
def exSseDone : Str := str "data: [DONE]\n\n"

/-- Claim C6, as stated, is false: a record whose payload parses to an
object with a non-empty choices list and a present, non-empty delta content
(`x[DONE]y`) appends nothing, because the line-level sentinel check
`line.includes('[DONE]')` runs before the payload is parsed and drops the
whole line. -/
theorem C6_counterexample :
    sseRecordContent exDoneLine = some (str "x[DONE]y") ∧
    streamResult .openrouter false [exDoneLine ++ str "\n\n"] [] = [] := by
  exact ⟨by decide, by decide⟩

/-- Claim C6 (amended): provided the line does not contain the `[DONE]`
sentinel as a substring, a record whose `data: ` payload parses to a JSON
object with a non-empty choices list and whose first choice's delta content
is a present, non-empty string appends exactly that string to the buffer;
in particular the chunk `data: {choices:[{delta:{content:A}}]}` followed by
`data: [DONE]` produces the buffer `A` with no error. -/
theorem C6_theorem (g : Bool) (l p : Str) (j c0 : JVal) (cr : List JVal) (s : Str)
    (st : St)
    (hl : l = str "data: " ++ p)
    (hdone : containsSub (str "[DONE]") l = false)
    (hp : jsonParse p = some j)
    (hch : getField j (str "choices") = some (.arr (c0 :: cr)))
    (hct : sseContentOf j = some (.str s))
    (hs : s ≠ []) :
    (sseLine g l st).buffer = st.buffer ++ s ∧
    streamResult .openrouter false [exSseA, exSseDone] [] = str "A" := by
  refine ⟨?_, by decide⟩
  have hws : allWs l = false := by
    subst hl
    rw [show str "data: " ++ p = 'd' :: (str "ata: " ++ p) from rfl]
    rw [allWs, List.all_cons, show isWsJS 'd' = false from by decide, Bool.false_and]
  have hpre : startsWithL (str "data: ") l = true := by
    subst hl
    rw [startsWithL, List.isPrefixOf_iff_prefix]
    exact List.prefix_append _ _
  have hdrop : l.drop 6 = p := by
    subst hl
    rfl
  unfold sseLine
  rw [hws, hdone, Bool.or_self, if_neg (by exact fun h => Bool.false_ne_true h),
    if_pos hpre, hdrop, hp]
  cases j with
  | null => simp [getField] at hch
  | bool b => simp [getField] at hch
  | num lx => simp [getField] at hch
  | str s2 => simp [getField] at hch
  | arr xs => simp [getField] at hch
  | obj fs =>
    dsimp only
    have htr : truthyO (getField (JVal.obj fs) (str "choices")) = true := by
      rw [hch]
      rfl
    have htc : truthyO (sseContentOf (JVal.obj fs)) = true := by
      rw [hct]
      simpa [truthyO, truthy] using hs
    rw [htr, if_pos rfl, htc, if_pos rfl]
    have hcv : jsStrU (sseContentOf (JVal.obj fs)) = s := by rw [hct]; rfl
    cases g with
    | true => rw [if_pos rfl, pacedEmit_buffer, hcv]
    | false =>
      rw [if_neg (by simp)]
      show st.buffer ++ jsStrU (sseContentOf (JVal.obj fs)) = st.buffer ++ s
      rw [hcv]

/-- The parsed payload of the `A` record. -/
def exSseAVal : JVal :=
  .obj [(str "choices",
    .arr [.obj [(str "delta", .obj [(str "content", JVal.str (str "A"))])]])]

/-- Witness for C6: the amended rule applied to the concrete `A` record. -/
theorem C6_witness :
    (sseLine false (str "data: \x7b\"choices\":[\x7b\"delta\":\x7b\"content\":\"A\"\x7d\x7d]\x7d")
        { buffer := [], wordBuffer := [], emits := [], notif := 0 }).buffer =
      ([] : Str) ++ str "A" ∧
    streamResult .openrouter false [exSseA, exSseDone] [] = str "A" :=
  C6_theorem false _ (str "\x7b\"choices\":[\x7b\"delta\":\x7b\"content\":\"A\"\x7d\x7d]\x7d")
    exSseAVal (.obj [(str "delta", .obj [(str "content", JVal.str (str "A"))])]) [] (str "A")
    { buffer := [], wordBuffer := [], emits := [], notif := 0 }
    rfl (by decide) rfl rfl rfl (by decide)

/-! ## Claims C7 to C10 -/

/-- A fresh session state with empty starting buffer. -/
def stInit : St := { buffer := [], wordBuffer := [], emits := [], notif := 0 }

/-- The Ollama chunk carrying content `Hel`. -/
def exHel : Str := str "\x7b\"message\":\x7b\"content\":\"Hel\"\x7d\x7d\n"

/-- The Ollama chunk carrying content `lo`. -/
def exLo : Str := str "\x7b\"message\":\x7b\"content\":\"lo\"\x7d\x7d\n"

/-- The frame line of `exHel`. -/
def exHelLine : Str := str "\x7b\"message\":\x7b\"content\":\"Hel\"\x7d\x7d"

/-- The parsed value of `exHelLine`. -/
def exHelVal : JVal :=
  .obj [(str "message", .obj [(str "content", JVal.str (str "Hel"))])]

/-- Claim C7: an Ollama record with a truthy `message` whose `content` is a
string contributes exactly that string; a record with no truthy `message`
whose `response` is a string contributes exactly that string (an empty one
contributing nothing, which is the same buffer); and the scenario
`message.content Hel` then `message.content lo` makes the buffer progress
`Hel` then `Hello`, with `Hello` returned. -/
theorem C7_theorem (l : Str) (data m : JVal) (s : Str) (st : St)
    (hws : allWs l = false)
    (hp : jsonParse l = some data)
    (hm : getField data (str "message") = some m)
    (hmt : truthy m = true)
    (hc : optChain (some m) (str "content") = some (.str s)) :
    ((ollamaLine st l).1.buffer = st.buffer ++ s ∧ (ollamaLine st l).2 = false) ∧
    (∀ (l2 : Str) (d2 : JVal) (s2 : Str) (st2 : St),
      allWs l2 = false → jsonParse l2 = some d2 →
      truthyO (getField d2 (str "message")) = false →
      getField d2 (str "response") = some (.str s2) →
      (ollamaLine st2 l2).1.buffer = st2.buffer ++ s2 ∧ (ollamaLine st2 l2).2 = false) ∧
    (runChunks .ollama false [exHel] stInit).buffer = str "Hel" ∧
    streamResult .ollama false [exHel, exLo] [] = str "Hello" := by
  refine ⟨?_, ?_, by decide, by decide⟩
  · have key : ollamaLine st l = (appendText 0 s st, false) := by
      unfold ollamaLine
      rw [hws, if_neg (fun h => Bool.false_ne_true h), hp]
      cases data with
      | null => simp [getField] at hm
      | bool b => simp [getField] at hm
      | num lx => simp [getField] at hm
      | str s2 => simp [getField] at hm
      | arr xs => simp [getField] at hm
      | obj fs =>
        dsimp only
        have htr : truthyO (getField (JVal.obj fs) (str "message")) = true := by
          rw [hm]
          exact hmt
        rw [htr, if_pos rfl]
        have hv : jsStrU (optChain (getField (JVal.obj fs) (str "message"))
            (str "content")) = s := by
          rw [hm, hc]
          rfl
        rw [hv]
    rw [key]
    exact ⟨rfl, rfl⟩
  · intro l2 d2 s2 st2 hws2 hp2 hmf hr
    unfold ollamaLine
    rw [hws2, if_neg (fun h => Bool.false_ne_true h), hp2]
    cases d2 with
    | null => simp [getField] at hr
    | bool b => simp [getField] at hr
    | num lx => simp [getField] at hr
    | str s3 => simp [getField] at hr
    | arr xs => simp [getField] at hr
    | obj fs =>
      dsimp only
      rw [hmf, if_neg (fun h => Bool.false_ne_true h)]
      by_cases hs2 : s2 = []
      · subst hs2
        have hrt : truthyO (getField (JVal.obj fs) (str "response")) = false := by
          rw [hr]
          rfl
        rw [hrt, if_neg (fun h => Bool.false_ne_true h)]
        exact ⟨by simp, rfl⟩
      · have hrt : truthyO (getField (JVal.obj fs) (str "response")) = true := by
          rw [hr]
          simpa [truthyO, truthy] using hs2
        rw [hrt, if_pos rfl]
        have hv : jsStrU (getField (JVal.obj fs) (str "response")) = s2 := by
          rw [hr]
          rfl
        rw [hv]
        exact ⟨rfl, rfl⟩

/-- Witness for C7: the end-to-end scenario, obtained from the theorem at
the `Hel` record. -/
theorem C7_witness :
    streamResult .ollama false [exHel, exLo] [] = str "Hello" :=
  (C7_theorem exHelLine exHelVal
    (.obj [(str "content", JVal.str (str "Hel"))]) (str "Hel") stInit
    (by decide) rfl rfl rfl rfl).2.2.2

/-- Claim C8: in the OpenRouter branch, a blank line, a line containing the
`[DONE]` sentinel, and a `data: ` line whose payload fails to parse each
leave the session state unchanged and raise no error, and the remaining
lines of the chunk are still processed (a bad line followed by the `A`
record still yields buffer `A`). -/
theorem C8_theorem (g : Bool) :
    (∀ (l : Str) (st : St), allWs l = true → sseLine g l st = st) ∧
    (∀ (l : Str) (st : St), containsSub (str "[DONE]") l = true → sseLine g l st = st) ∧
    (∀ (l p2 : Str) (st : St), l = str "data: " ++ p2 → jsonParse p2 = none →
      sseLine g l st = st) ∧
    streamResult .openrouter g [str "data: notjson\n" ++ exSseA] [] = str "A" := by
  refine ⟨?_, ?_, ?_, ?_⟩
  · intro l st h
    unfold sseLine
    rw [h, Bool.true_or, if_pos rfl]
  · intro l st h
    unfold sseLine
    rw [h, Bool.or_true, if_pos rfl]
  · intro l p2 st hl hp
    unfold sseLine
    by_cases h1 : (allWs l || containsSub (str "[DONE]") l) = true
    · rw [if_pos h1]
    · rw [if_neg h1]
      have hpre : startsWithL (str "data: ") l = true := by
        subst hl
        rw [startsWithL, List.isPrefixOf_iff_prefix]
        exact List.prefix_append _ _
      have hdrop : l.drop 6 = p2 := by
        subst hl
        rfl
      rw [if_pos hpre, hdrop, hp]
  · cases g <;> decide

/-- Witness for C8: a blank line and an unparseable `data: ` line, each
leaving a fresh session state unchanged. -/
theorem C8_witness :
    sseLine false [] stInit = stInit ∧
    sseLine false (str "data: notjson") stInit = stInit :=
  ⟨(C8_theorem false).1 [] stInit (by decide),
   (C8_theorem false).2.2.1 (str "data: notjson") (str "notjson") stInit rfl rfl⟩

/-- Claim C9, as stated, is false: after the caller abandons the session
(`handleNewChat` mid-stream), a late-arriving chunk still mutates the
buffer and raises the observer notification count above its value at the
abandonment point — the session resurrects. -/
theorem C9_counterexample :
    (runEv .ollama false [.chunk exHel, .newChat, .chunk exLo] stInit).notif >
      (runEv .ollama false [.chunk exHel, .newChat] stInit).notif ∧
    (runEv .ollama false [.chunk exHel, .newChat, .chunk exLo] stInit).buffer ≠
      (runEv .ollama false [.chunk exHel, .newChat] stInit).buffer := by
  exact ⟨by decide, by decide⟩

/-- Claim C9 (amended): `handleNewChat` clears the shared buffer and
notifies the observer once with the cleared value, but nothing cancels the
in-flight read loop: a chunk arriving after abandonment is processed
exactly as if the session were live, and a content-carrying late chunk
raises the notification count again. -/
theorem C9_theorem (p : Provider) (g : Bool) (evs : List Ev) (c : Str) (st : St) :
    runEv p g (evs ++ [.newChat, .chunk c]) st =
      procChunk p g c (handleNewChat (runEv p g evs st)) ∧
    (procChunk .ollama false exLo (runEv .ollama false [.chunk exHel, .newChat] stInit)).notif =
      (runEv .ollama false [.chunk exHel, .newChat] stInit).notif + 1 := by
  constructor
  · unfold runEv
    rw [List.foldl_append]
    rfl
  · decide

/-- Claim C10: when the prompt trims to nothing or no model is selected,
`handleSendPrompt` returns immediately: no chat creation, no message save,
no provider request, and no state change. -/
theorem C10_theorem (s : UIState) (h : allWs s.prompt = true ∨ s.selectedLLM = []) :
    handleSendPrompt s = (s, []) := by
  unfold handleSendPrompt
  rcases h with h | h <;> simp [h]

/-- A UI state with a whitespace-only prompt and a selected model. -/
def uiEx : UIState :=
  { prompt := str "   "
    selectedLLM := str "gpt-4"
    apiProvider := .openrouter
    isConversationStarted := false
    isGenerating := false
    currentChatId := none
    streamBuffer := []
    streamedResponse := [] }

/-- Witness for C10: the whitespace-only prompt returns unchanged state and
no effects. -/
theorem C10_witness : handleSendPrompt uiEx = (uiEx, []) :=
  C10_theorem uiEx (Or.inl (by decide))
